import Mathlib

/-!
Verification of the staged command orchestrator of the `neverest` manager
module (files `module.py`, `api.py`, `common.py`).

The orchestrator's state machine is embedded shallowly:

* `CommandResult` models the result handle created per dispatched command
  (tag and opaque command payload).  The result code `r` of a handle is
  written by the external control plane before the completion notification
  fires, so the functions that read it (`CommandsRequest.finish`) receive it
  as an explicit parameter `rval`.
* `CommandsRequest` is the batch: `running`, `waiting`, `finished`,
  `failed`, plus the batch id `uuid`.
* Dispatch failure (`send_command` raising) is modelled by a parameter
  `sendThrows : Cmd → Bool`; a function that can propagate a Python
  exception returns `Except Unit _` (or pairs its result with a `Bool`
  exception flag when the partially-mutated state survives, as for `next`).
* `Module.notify` is the command branch of `Module._notify`; the registry
  is the list `requests`.
* `Request.delete` is the bulk sweep endpoint from `api.py`.

Command payloads are opaque to the orchestrator, so they are embedded as an
arbitrary countable token type (`Cmd := Nat`).
-/

/-- Opaque command payload; the orchestrator never inspects it. -/
abbrev Cmd := Nat

/-- Result handle for one dispatched command: its routing tag and the
command payload.  (The mutable result code `r`, written later by the
control plane, is passed to `finish` explicitly.) -/
structure CommandResult where
  tag : String
  command : Cmd
deriving DecidableEq

/-- Batch of staged commands, `CommandsRequest` in `module.py`. -/
structure CommandsRequest where
  uuid : String
  running : List CommandResult
  waiting : List (List Cmd)
  finished : List CommandResult
  failed : List CommandResult
deriving DecidableEq

/-- Tag construction from `CommandsRequest.run`:
tag = uuid, a colon, then the decimal position inside the stage. -/
def tagOf (uuid : String) (index : Nat) : String :=
  uuid ++ ":" ++ toString index

/-- Loop body of `CommandsRequest.run`, carrying the running index.
For each command it creates a `CommandResult` tagged `tagOf uuid index`
and sends the command; if a send raises, the whole call raises and the
locally accumulated result list is discarded. -/
def runAux (sendThrows : Cmd → Bool) (uuid : String) :
    Nat → List Cmd → Except Unit (List CommandResult)
  | _, [] => Except.ok []
  | index, c :: cs =>
    if sendThrows c then Except.error ()
    else
      match runAux sendThrows uuid (index + 1) cs with
      | Except.ok rest => Except.ok (⟨tagOf uuid index, c⟩ :: rest)
      | Except.error e => Except.error e

/-- Static method `CommandsRequest.run(commands, uuid)`: dispatches the
given commands in parallel, with stage-local indices starting at 0, and
returns the created result handles. -/
def CommandsRequest.run (sendThrows : Cmd → Bool) (commands : List Cmd)
    (uuid : String) : Except Unit (List CommandResult) :=
  runAux sendThrows uuid 0 commands

/-- Constructor `CommandsRequest.__init__`.  It sets `running = []`,
`waiting = commands_arrays[1:]`, returns at once on an empty submission,
and otherwise dispatches the first stage inside a try/except.  When the
dispatch raises, the handler only logs; the following unconditional
`self.running.extend(results)` then reads the never-assigned local
`results`, so the constructor raises `UnboundLocalError` to its caller —
modelled by `Except.error ()`. -/
def CommandsRequest.init (sendThrows : Cmd → Bool) (uuid : String)
    (commands_arrays : List (List Cmd)) : Except Unit CommandsRequest :=
  match commands_arrays with
  | [] => Except.ok ⟨uuid, [], [], [], []⟩
  | first :: rest =>
    match CommandsRequest.run sendThrows first uuid with
    | Except.ok results => Except.ok ⟨uuid, results, rest, [], []⟩
    | Except.error _ => Except.error ()

/-- Method `CommandsRequest.next`.  If `waiting` is empty it returns at
once; otherwise it pops the head stage and extends `running` with the
freshly dispatched results.  The head is popped before dispatching, so if
the dispatch raises, the exception propagates (flag `true`) with the head
stage already removed and `running` untouched. -/
def CommandsRequest.next (sendThrows : Cmd → Bool) (b : CommandsRequest) :
    Bool × CommandsRequest :=
  match b.waiting with
  | [] => (false, b)
  | commands :: rest =>
    match CommandsRequest.run sendThrows commands b.uuid with
    | Except.ok results =>
        (false, { b with waiting := rest, running := b.running ++ results })
    | Except.error _ => (true, { b with waiting := rest })

/-- Scan of `finish`'s loop: find the first element whose `tag` matches,
return it and the list with that one element popped. -/
def removeFirstTag (tag : String) :
    List CommandResult → Option (CommandResult × List CommandResult)
  | [] => none
  | x :: xs =>
    if x.tag == tag then some (x, xs)
    else
      match removeFirstTag tag xs with
      | some (y, ys) => some (y, x :: ys)
      | none => none

/-- Method `CommandsRequest.finish(tag)`.  `rval` is the result code `r`
that the control plane stored in the matched handle before notifying.
The first running handle with the tag is popped and appended to
`finished` when `r == 0`, else to `failed`; returns whether a handle
matched. -/
def CommandsRequest.finish (b : CommandsRequest) (tag : String) (rval : Int) :
    Bool × CommandsRequest :=
  match removeFirstTag tag b.running with
  | none => (false, b)
  | some (x, rest) =>
    if rval == 0 then
      (true, { b with running := rest, finished := b.finished ++ [x] })
    else
      (true, { b with running := rest, failed := b.failed ++ [x] })

/-- Method `CommandsRequest.is_running(tag)`. -/
def CommandsRequest.is_running (b : CommandsRequest) (tag : String) : Bool :=
  b.running.any fun result => result.tag == tag

/-- Method `CommandsRequest.is_ready`: truthiness of
`not self.running and self.waiting`. -/
def CommandsRequest.is_ready (b : CommandsRequest) : Bool :=
  b.running.isEmpty && !b.waiting.isEmpty

/-- Method `CommandsRequest.is_waiting`. -/
def CommandsRequest.is_waiting (b : CommandsRequest) : Bool :=
  !b.waiting.isEmpty

/-- Method `CommandsRequest.is_finished`. -/
def CommandsRequest.is_finished (b : CommandsRequest) : Bool :=
  b.running.isEmpty && b.waiting.isEmpty

/-- Method `CommandsRequest.has_failed`. -/
def CommandsRequest.has_failed (b : CommandsRequest) : Bool :=
  !b.failed.isEmpty

/-- Method `CommandsRequest.get_state`. -/
def CommandsRequest.get_state (b : CommandsRequest) : String :=
  if !b.is_finished then "pending"
  else if b.has_failed then "failed"
  else "success"

/-- Body applied by `Module._notify` to the unique matching request:
`request.finish(tag)` followed by `if request.is_ready(): request.next()`.
A dispatch exception inside `next` is caught one level up by
`Module.notify`, so only the resulting state matters here. -/
def notifyStep (sendThrows : Cmd → Bool) (tag : String) (rval : Int)
    (b : CommandsRequest) : CommandsRequest :=
  let b1 := (b.finish tag rval).2
  if b1.is_ready then (b1.next sendThrows).2 else b1

/-- In-place update of the first list element satisfying `p`; Python's
mutation of the single object `filter(...)[0]` where it sits in the
registry list. -/
def updateFirst (p : α → Bool) (f : α → α) : List α → List α
  | [] => []
  | x :: xs => if p x then f x :: xs else x :: updateFirst p f xs

/-- Command branch of `Module._notify(notify_type, tag)`: filter the
registry for requests whose `running` holds the tag; unless exactly one
matches, log and drop; otherwise finish that request and advance it when
it became ready. -/
def Module.notify (sendThrows : Cmd → Bool) (requests : List CommandsRequest)
    (tag : String) (rval : Int) : List CommandsRequest :=
  if (requests.filter fun b => b.is_running tag).length == 1 then
    updateFirst (fun b => b.is_running tag) (notifyStep sendThrows tag rval)
      requests
  else requests

/-- Endpoint `Request.delete` from `api.py`: keep only the unfinished
requests and return how many were dropped. -/
def Request.delete (requests : List CommandsRequest) :
    Nat × List CommandsRequest :=
  let remaining := requests.filter fun b => !b.is_finished
  (requests.length - remaining.length, remaining)

/-- Dispatch environment in which no send ever raises. -/
def noThrow : Cmd → Bool := fun _ => false

/-- One mutation of a batch by the orchestrator when dispatch never
raises: a completion delivery (`finish`) or a stage advance (`next`). -/
inductive Step : CommandsRequest → CommandsRequest → Prop where
  | finish (b : CommandsRequest) (tag : String) (rval : Int) :
      Step b (b.finish tag rval).2
  | next (b : CommandsRequest) : Step b (b.next noThrow).2

/-- One mutation of a batch under an arbitrary dispatch environment. -/
inductive StepAny : CommandsRequest → CommandsRequest → Prop where
  | finish (b : CommandsRequest) (tag : String) (rval : Int) :
      StepAny b (b.finish tag rval).2
  | next (b : CommandsRequest) (sendThrows : Cmd → Bool) :
      StepAny b (b.next sendThrows).2

/-- All command payloads a batch currently tracks, counted with
multiplicity: running, finished and failed handles plus the
not-yet-dispatched waiting stages. -/
def commandBag (b : CommandsRequest) : Multiset Cmd :=
  (↑(b.running.map fun r => r.command) : Multiset Cmd) +
    ↑(b.finished.map fun r => r.command) +
    ↑(b.failed.map fun r => r.command) + ↑b.waiting.flatten

/-- The result handles `run` produces when no send raises: one handle per
command, tagged with consecutive stage-local positions. -/
def runPure (uuid : String) : Nat → List Cmd → List CommandResult
  | _, [] => []
  | index, c :: cs => ⟨tagOf uuid index, c⟩ :: runPure uuid (index + 1) cs

theorem runAux_eq_ok {st : Cmd → Bool} {uuid : String} :
    ∀ {cmds : List Cmd} {index : Nat} {res : List CommandResult},
      runAux st uuid index cmds = Except.ok res → res = runPure uuid index cmds := by
  intro cmds
  induction cmds with
  | nil =>
    intro index res h
    simp only [runAux] at h
    cases h
    rfl
  | cons c cs ih =>
    intro index res h
    by_cases hc : st c
    · simp [runAux, hc] at h
    · simp only [runAux, hc, Bool.false_eq_true, if_false] at h
      cases hrec : runAux st uuid (index + 1) cs with
      | ok rest =>
        rw [hrec] at h
        cases h
        simp [runPure, ih hrec]
      | error e => rw [hrec] at h; cases h

theorem runAux_noThrow (uuid : String) :
    ∀ (cmds : List Cmd) (index : Nat),
      runAux noThrow uuid index cmds = Except.ok (runPure uuid index cmds) := by
  intro cmds
  induction cmds with
  | nil => intro index; rfl
  | cons c cs ih => intro index; simp [runAux, noThrow, ih, runPure]

theorem run_noThrow (uuid : String) (cmds : List Cmd) :
    CommandsRequest.run noThrow cmds uuid = Except.ok (runPure uuid 0 cmds) :=
  runAux_noThrow uuid cmds 0

theorem runPure_length (uuid : String) :
    ∀ (index : Nat) (cmds : List Cmd),
      (runPure uuid index cmds).length = cmds.length := by
  intro index cmds
  induction cmds generalizing index with
  | nil => rfl
  | cons c cs ih => simp [runPure, ih]

theorem runPure_map_command (uuid : String) :
    ∀ (index : Nat) (cmds : List Cmd),
      (runPure uuid index cmds).map (fun r => r.command) = cmds := by
  intro index cmds
  induction cmds generalizing index with
  | nil => rfl
  | cons c cs ih => simp [runPure, ih]

theorem runPure_get (uuid : String) :
    ∀ (cmds : List Cmd) (index i : Nat) (hi : i < cmds.length)
      (hi' : i < (runPure uuid index cmds).length),
      (runPure uuid index cmds).get ⟨i, hi'⟩ =
        ⟨tagOf uuid (index + i), cmds.get ⟨i, hi⟩⟩ := by
  intro cmds
  induction cmds with
  | nil => intro index i hi _; exact absurd hi (by simp)
  | cons c cs ih =>
    intro index i hi hi'
    cases i with
    | zero => simp [runPure]
    | succ j =>
      have hj : j < cs.length := by simpa using hi
      have hj' : j < (runPure uuid (index + 1) cs).length := by
        rw [runPure_length]; exact hj
      have hstep := ih (index + 1) j hj hj'
      simpa [runPure, Nat.add_assoc, Nat.add_comm 1 j] using hstep

theorem removeFirstTag_eq_some {tag : String} :
    ∀ {l : List CommandResult} {x : CommandResult} {rest : List CommandResult},
      removeFirstTag tag l = some (x, rest) →
      ∃ pre post, l = pre ++ x :: post ∧ rest = pre ++ post ∧ x.tag = tag ∧
        ∀ y ∈ pre, y.tag ≠ tag := by
  intro l
  induction l with
  | nil => intro x rest h; simp [removeFirstTag] at h
  | cons z zs ih =>
    intro x rest h
    by_cases hz : z.tag == tag
    · simp only [removeFirstTag, hz, if_true] at h
      cases h
      exact ⟨[], zs, rfl, rfl, by simpa using hz, by simp⟩
    · simp only [removeFirstTag, hz, Bool.false_eq_true, if_false] at h
      cases hrec : removeFirstTag tag zs with
      | some p =>
        obtain ⟨y, ys⟩ := p
        rw [hrec] at h
        cases h
        obtain ⟨pre, post, hzs, hys, hy, hpre⟩ := ih hrec
        refine ⟨z :: pre, post, by simp [hzs], by simp [hys], hy, ?_⟩
        intro w hw
        rcases List.mem_cons.mp hw with hw | hw
        · subst hw; simpa using hz
        · exact hpre w hw
      | none => rw [hrec] at h; cases h

theorem removeFirstTag_eq_none_of {tag : String} :
    ∀ {l : List CommandResult}, (∀ y ∈ l, y.tag ≠ tag) →
      removeFirstTag tag l = none := by
  intro l
  induction l with
  | nil => intro _; rfl
  | cons z zs ih =>
    intro h
    have hz : (z.tag == tag) = false := by
      simpa using h z (List.mem_cons_self z zs)
    simp only [removeFirstTag, hz, Bool.false_eq_true, if_false]
    rw [ih fun y hy => h y (List.mem_cons_of_mem z hy)]

theorem removeFirstTag_isSome_of {tag : String} :
    ∀ {l : List CommandResult}, (∃ y ∈ l, y.tag = tag) →
      ∃ x rest, removeFirstTag tag l = some (x, rest) := by
  intro l
  induction l with
  | nil => intro h; simp at h
  | cons z zs ih =>
    intro h
    by_cases hz : z.tag == tag
    · exact ⟨z, zs, by simp [removeFirstTag, hz]⟩
    · obtain ⟨y, hy, hytag⟩ := h
      rcases List.mem_cons.mp hy with hyz | hyzs
      · subst hyz; exact absurd (by simpa using hytag) (by simpa using hz)
      · obtain ⟨x, rest, hx⟩ := ih ⟨y, hyzs, hytag⟩
        exact ⟨x, z :: rest,
          by simp only [removeFirstTag, hz, Bool.false_eq_true, if_false, hx]⟩

theorem commandBag_finish (b : CommandsRequest) (tag : String) (rval : Int) :
    commandBag (b.finish tag rval).2 = commandBag b := by
  unfold CommandsRequest.finish
  cases hr : removeFirstTag tag b.running with
  | none => rfl
  | some p =>
    obtain ⟨x, rest⟩ := p
    obtain ⟨pre, post, hl, hrest, -, -⟩ := removeFirstTag_eq_some hr
    subst hrest
    by_cases h0 : rval == 0 <;>
      simp only [h0, Bool.false_eq_true, if_true, if_false] <;>
      simp only [commandBag, hl, List.map_append, List.map_cons, List.map_nil,
        List.flatten, ← Multiset.coe_add, ← Multiset.cons_coe,
        ← Multiset.singleton_add, Multiset.coe_singleton] <;>
      abel

theorem next_eq_nil {st : Cmd → Bool} {b : CommandsRequest}
    (h : b.waiting = []) : b.next st = (false, b) := by
  simp [CommandsRequest.next, h]

theorem next_eq_cons {st : Cmd → Bool} {b : CommandsRequest}
    {stage : List Cmd} {rest : List (List Cmd)} (h : b.waiting = stage :: rest)
    {results : List CommandResult}
    (hrun : CommandsRequest.run st stage b.uuid = Except.ok results) :
    b.next st =
      (false, { b with waiting := rest, running := b.running ++ results }) := by
  simp [CommandsRequest.next, h, hrun]

theorem commandBag_next (b : CommandsRequest) :
    commandBag (b.next noThrow).2 = commandBag b := by
  cases hw : b.waiting with
  | nil => rw [next_eq_nil hw]
  | cons stage rest =>
    rw [next_eq_cons hw (run_noThrow b.uuid stage)]
    simp only [commandBag, hw, List.map_append, runPure_map_command,
      List.flatten_cons, ← Multiset.coe_add]
    abel

theorem commandBag_step {b b' : CommandsRequest} (h : Step b b') :
    commandBag b' = commandBag b := by
  cases h with
  | finish tag rval => exact commandBag_finish b tag rval
  | next => exact commandBag_next b

theorem commandBag_reachable {b b' : CommandsRequest}
    (h : Relation.ReflTransGen Step b b') : commandBag b' = commandBag b := by
  induction h with
  | refl => rfl
  | tail _ hstep ih => rw [commandBag_step hstep, ih]

theorem commandBag_init {st : Cmd → Bool} {uuid : String}
    {stages : List (List Cmd)} {b0 : CommandsRequest}
    (h : CommandsRequest.init st uuid stages = Except.ok b0) :
    commandBag b0 = (stages.flatten : Multiset Cmd) := by
  cases stages with
  | nil =>
    simp only [CommandsRequest.init] at h
    cases h
    rfl
  | cons first rest =>
    simp only [CommandsRequest.init] at h
    cases hrun : CommandsRequest.run st first uuid with
    | ok results =>
      rw [hrun] at h
      cases h
      have hres : results = runPure uuid 0 first := runAux_eq_ok hrun
      subst hres
      simp only [commandBag, runPure_map_command, List.map_nil,
        List.flatten_cons, ← Multiset.coe_add]
      abel
    | error e => rw [hrun] at h; cases h

theorem is_running_eq_false_iff (b : CommandsRequest) (tag : String) :
    b.is_running tag = false ↔ ∀ y ∈ b.running, y.tag ≠ tag := by
  simp [CommandsRequest.is_running]

theorem is_running_eq_true_iff (b : CommandsRequest) (tag : String) :
    b.is_running tag = true ↔ ∃ y ∈ b.running, y.tag = tag := by
  simp [CommandsRequest.is_running]

theorem is_finished_iff (b : CommandsRequest) :
    b.is_finished = true ↔ b.running = [] ∧ b.waiting = [] := by
  simp [CommandsRequest.is_finished]

theorem finish_of_finished {b : CommandsRequest} (h : b.is_finished = true)
    (tag : String) (rval : Int) : b.finish tag rval = (false, b) := by
  obtain ⟨hr, -⟩ := (is_finished_iff b).mp h
  simp [CommandsRequest.finish, hr, removeFirstTag]

theorem stepAny_of_finished {b b' : CommandsRequest} (h : b.is_finished = true)
    (hs : StepAny b b') : b' = b := by
  obtain ⟨-, hw⟩ := (is_finished_iff b).mp h
  cases hs with
  | finish tag rval => rw [finish_of_finished h tag rval]
  | next st => rw [next_eq_nil hw]

theorem filter_eq_nil_of {α : Type} (p : α → Bool) :
    ∀ l : List α, (∀ y ∈ l, p y = false) → l.filter p = [] := by
  intro l
  induction l with
  | nil => intro _; rfl
  | cons z zs ih =>
    intro h
    have hz : p z = false := h z (List.mem_cons_self z zs)
    simp [List.filter_cons, hz,
      ih fun y hy => h y (List.mem_cons_of_mem z hy)]

theorem updateFirst_append {α : Type} (p : α → Bool) (f : α → α) :
    ∀ (pre : List α) (b : α) (post : List α),
      (∀ y ∈ pre, p y = false) → p b = true →
      updateFirst p f (pre ++ b :: post) = pre ++ f b :: post := by
  intro pre
  induction pre with
  | nil => intro b post _ hb; simp [updateFirst, hb]
  | cons z zs ih =>
    intro b post hpre hb
    have hz : p z = false := hpre z (List.mem_cons_self z zs)
    simp [updateFirst, hz,
      ih b post (fun y hy => hpre y (List.mem_cons_of_mem z hy)) hb]

/-- C1 (counterexample): in the batch `[[0], [1]]` with id `"u"`, the first
stage's sole invocation is tagged `"u:0"`; after its completion the router
advances and the second stage's sole invocation is again tagged `"u:0"` —
a tag assigned when dispatching a later stage equals a tag assigned when
dispatching an earlier stage of the same batch, refuting global
uniqueness. -/
theorem c1_tag_collision_counterexample :
    CommandsRequest.init noThrow "u" [[0], [1]] =
      Except.ok ⟨"u", [⟨"u:0", 0⟩], [[1]], [], []⟩ ∧
    Module.notify noThrow [⟨"u", [⟨"u:0", 0⟩], [[1]], [], []⟩] "u:0" 0 =
      [⟨"u", [⟨"u:0", 1⟩], [], [⟨"u:0", 0⟩], []⟩] ∧
    (⟨"u:0", 1⟩ : CommandResult).tag = (⟨"u:0", 0⟩ : CommandResult).tag :=
  ⟨rfl, rfl, rfl⟩

/-- C1 (amended): tags are assigned positionally — dispatching a stage
tags the invocation at position `i` with `tagOf uuid i`
(`<batch-id>:<stage-local-index>`) and carries the command at that
position, so tags are stable and unique positions within one stage
dispatch, while the invocation at position `i` of any later stage of the
same batch receives exactly the tag already used at position `i` of any
earlier stage. -/
theorem c1_tags_positional (st st2 : Cmd → Bool) (uuid : String)
    (cmds cmds2 : List Cmd) (res res2 : List CommandResult)
    (h : CommandsRequest.run st cmds uuid = Except.ok res)
    (h2 : CommandsRequest.run st2 cmds2 uuid = Except.ok res2) :
    res.length = cmds.length ∧
    (∀ i (hi : i < cmds.length) (hi' : i < res.length),
      (res.get ⟨i, hi'⟩).tag = tagOf uuid i ∧
      (res.get ⟨i, hi'⟩).command = cmds.get ⟨i, hi⟩) ∧
    (∀ i (hi : i < res.length) (hi2 : i < res2.length),
      (res.get ⟨i, hi⟩).tag = (res2.get ⟨i, hi2⟩).tag) := by
  have hr : res = runPure uuid 0 cmds := runAux_eq_ok h
  have hr2 : res2 = runPure uuid 0 cmds2 := runAux_eq_ok h2
  subst hr
  subst hr2
  refine ⟨runPure_length uuid 0 cmds, ?_, ?_⟩
  · intro i hi hi'
    rw [runPure_get uuid cmds 0 i hi hi']
    exact ⟨by simp, rfl⟩
  · intro i hi hi2
    have hic : i < cmds.length := by
      rw [← runPure_length uuid 0 cmds]; exact hi
    have hic2 : i < cmds2.length := by
      rw [← runPure_length uuid 0 cmds2]; exact hi2
    rw [runPure_get uuid cmds 0 i hic hi, runPure_get uuid cmds2 0 i hic2 hi2]

/-- C1 (witness): concrete two-command stage tagged positionally, and the
positional tag of stage `[9]` at position 0 coincides with that of stage
`[5, 7]` at position 0. -/
theorem c1_tags_positional_witness :
    (([⟨tagOf "u" 0, 5⟩, ⟨tagOf "u" 1, 7⟩] : List CommandResult).get
        ⟨1, by decide⟩).tag = tagOf "u" 1 ∧
    (([⟨tagOf "u" 0, 5⟩, ⟨tagOf "u" 1, 7⟩] : List CommandResult).get
        ⟨0, by decide⟩).tag =
      (([⟨tagOf "u" 0, 9⟩] : List CommandResult).get ⟨0, by decide⟩).tag := by
  have h := c1_tags_positional noThrow noThrow "u" [5, 7] [9]
    [⟨tagOf "u" 0, 5⟩, ⟨tagOf "u" 1, 7⟩] [⟨tagOf "u" 0, 9⟩] rfl rfl
  exact ⟨(h.2.1 1 (by decide) (by decide)).1, h.2.2 0 (by decide) (by decide)⟩

/-- C2 (code bug): with a dispatcher whose send always raises, the
constructor on the non-empty stage list `[[0], [1]]` does not return
normally with `running` empty — the logged dispatch exception is followed
by `self.running.extend(results)` reading the never-assigned local
`results`, so the constructor raises to its caller and yields no batch at
all. -/
theorem c2_init_raises_on_dispatch_failure :
    CommandsRequest.init (fun _ => true) "u" [[0], [1]] = Except.error () ∧
    ∀ b : CommandsRequest,
      CommandsRequest.init (fun _ => true) "u" [[0], [1]] ≠ Except.ok b := by
  refine ⟨rfl, fun b h => ?_⟩
  simp [CommandsRequest.init, CommandsRequest.run, runAux] at h

/-- C3 (counterexample): in a state with `running` non-empty and `waiting`
non-empty, `next` is not a no-op — it dispatches the head of `waiting`
anyway, so the claimed iff (dispatch exactly when `running` is empty and
`waiting` non-empty) fails. -/
theorem c3_next_unguarded_counterexample :
    ¬ (⟨"u", [⟨"u:0", 0⟩], [[1]], [], []⟩ : CommandsRequest).next noThrow =
        (false, ⟨"u", [⟨"u:0", 0⟩], [[1]], [], []⟩) := by
  decide

/-- C3 (amended): `next` dispatches the head of `waiting` into `running`
if and only if `waiting` is non-empty, regardless of whether `running` is
empty; only when `waiting` is empty is it a no-op.  (The `running`-empty
guard is enforced by the caller `_notify` via `is_ready`, not by `next`
itself.) -/
theorem c3_next_characterization (st : Cmd → Bool) (b : CommandsRequest) :
    (b.waiting = [] → b.next st = (false, b)) ∧
    ∀ stage rest, b.waiting = stage :: rest →
      ∀ results, CommandsRequest.run st stage b.uuid = Except.ok results →
        b.next st =
          (false, { b with waiting := rest, running := b.running ++ results }) :=
  ⟨fun h => next_eq_nil h, fun _ _ h _ hrun => next_eq_cons h hrun⟩

/-- C3 (witness): `next` on a batch with one running invocation and one
waiting stage dispatches that stage into `running`. -/
theorem c3_next_characterization_witness :
    (⟨"u", [⟨tagOf "u" 0, 0⟩], [[1]], [], []⟩ : CommandsRequest).next noThrow =
      (false, ⟨"u", [⟨tagOf "u" 0, 0⟩, ⟨tagOf "u" 0, 1⟩], [], [], []⟩) := by
  have h := (c3_next_characterization noThrow
    ⟨"u", [⟨tagOf "u" 0, 0⟩], [[1]], [], []⟩).2 [1] [] rfl
    [⟨tagOf "u" 0, 1⟩] rfl
  simpa using h

/-- C4: from any batch constructed with a non-raising dispatcher, along
any sequence of completion deliveries (`finish`) and stage advances
(`next`), the multiset of command payloads held in `running`, `finished`,
`failed` and the waiting stages is exactly the multiset of payloads
submitted at construction — nothing is duplicated or lost. -/
theorem c4_partition (uuid : String) (stages : List (List Cmd))
    (b0 b : CommandsRequest)
    (h0 : CommandsRequest.init noThrow uuid stages = Except.ok b0)
    (h : Relation.ReflTransGen Step b0 b) :
    commandBag b = (stages.flatten : Multiset Cmd) := by
  rw [commandBag_reachable h, commandBag_init h0]

/-- C4 (witness): the freshly constructed batch for `[[0], [1]]` tracks
exactly the payload multiset of the submission. -/
theorem c4_partition_witness :
    commandBag ⟨"u", [⟨tagOf "u" 0, 0⟩], [[1]], [], []⟩ =
      (([[0], [1]] : List (List Cmd)).flatten : Multiset Cmd) :=
  c4_partition "u" [[0], [1]] ⟨"u", [⟨tagOf "u" 0, 0⟩], [[1]], [], []⟩
    ⟨"u", [⟨tagOf "u" 0, 0⟩], [[1]], [], []⟩ rfl Relation.ReflTransGen.refl

/-- C5: scenario B — submitting `[[a], [b]]` yields `running` holding the
invocation of `a` and `waiting` holding `[b]`; delivering a failure
completion (result code 1) for `a`'s tag moves `a` to `failed`, empties
`running` and triggers dispatch of the next stage, so `running` holds
`b`'s invocation and `waiting` is empty; delivering a success completion
(result code 0) for `b` then yields `finished` holding `b`, and the
terminal state reports `"failed"`. -/
theorem c5_failure_does_not_halt_progression (a b : Cmd) :
    CommandsRequest.init noThrow "u" [[a], [b]] =
      Except.ok ⟨"u", [⟨"u:0", a⟩], [[b]], [], []⟩ ∧
    Module.notify noThrow [⟨"u", [⟨"u:0", a⟩], [[b]], [], []⟩] "u:0" 1 =
      [⟨"u", [⟨"u:0", b⟩], [], [], [⟨"u:0", a⟩]⟩] ∧
    Module.notify noThrow [⟨"u", [⟨"u:0", b⟩], [], [], [⟨"u:0", a⟩]⟩]
        "u:0" 0 =
      [⟨"u", [], [], [⟨"u:0", b⟩], [⟨"u:0", a⟩]⟩] ∧
    (⟨"u", [], [], [⟨"u:0", b⟩], [⟨"u:0", a⟩]⟩ : CommandsRequest).is_finished =
      true ∧
    (⟨"u", [], [], [⟨"u:0", b⟩], [⟨"u:0", a⟩]⟩ : CommandsRequest).get_state =
      "failed" :=
  ⟨rfl, rfl, rfl, rfl, rfl⟩

/-- C6: once a batch is finished (`running` and `waiting` both empty), it
stays finished after any further sequence of completion deliveries
(`finish`) and stage advances (`next`, under any dispatch environment) —
indeed every such call leaves the batch unchanged. -/
theorem c6_finished_is_stable (b b' : CommandsRequest)
    (hfin : b.is_finished = true)
    (h : Relation.ReflTransGen StepAny b b') : b'.is_finished = true := by
  induction h with
  | refl => exact hfin
  | tail _ hstep ih => rw [stepAny_of_finished ih hstep]; exact ih

/-- C6 (witness): a finished batch subjected to one further completion
delivery is still finished. -/
theorem c6_finished_is_stable_witness :
    ((⟨"u", [], [], [], []⟩ : CommandsRequest).finish "x" 0).2.is_finished =
      true :=
  c6_finished_is_stable ⟨"u", [], [], [], []⟩ _ rfl
    (Relation.ReflTransGen.single (StepAny.finish ⟨"u", [], [], [], []⟩ "x" 0))

/-- C7: `get_state` returns `"success"` iff the batch is finished with
`failed` empty, `"failed"` iff finished with `failed` non-empty, and
`"pending"` otherwise; the empty submission constructs a batch that is
immediately finished with state `"success"`. -/
theorem c7_get_state_characterization (b : CommandsRequest)
    (st : Cmd → Bool) (uuid : String) :
    (b.get_state = "success" ↔ b.is_finished = true ∧ b.failed = []) ∧
    (b.get_state = "failed" ↔ b.is_finished = true ∧ b.failed ≠ []) ∧
    (b.get_state = "pending" ↔ b.is_finished = false) ∧
    CommandsRequest.init st uuid [] = Except.ok ⟨uuid, [], [], [], []⟩ ∧
    (⟨uuid, [], [], [], []⟩ : CommandsRequest).is_finished = true ∧
    (⟨uuid, [], [], [], []⟩ : CommandsRequest).get_state = "success" := by
  refine ⟨?_, ?_, ?_, rfl, rfl, rfl⟩ <;>
  · cases hfin : b.is_finished with
    | false => simp [CommandsRequest.get_state, hfin]
    | true =>
      cases hf : b.failed with
      | nil =>
        simp [CommandsRequest.get_state, CommandsRequest.has_failed, hfin, hf]
      | cons z zs =>
        simp [CommandsRequest.get_state, CommandsRequest.has_failed, hfin, hf]

/-- C8: `finish` with a tag carried by no running invocation returns
`false` and leaves the batch unchanged; with a tag that is present it
returns `true`, removes exactly the first matching invocation from
`running`, and appends it to `finished` when the reported result code is
0 and to `failed` otherwise, leaving everything else untouched. -/
theorem c8_finish_characterization (b : CommandsRequest) (tag : String)
    (rval : Int) :
    (b.is_running tag = false → b.finish tag rval = (false, b)) ∧
    (b.is_running tag = true →
      (b.finish tag rval).1 = true ∧
      ∃ x pre post,
        b.running = pre ++ x :: post ∧ x.tag = tag ∧
        (∀ y ∈ pre, y.tag ≠ tag) ∧
        (b.finish tag rval).2.running = pre ++ post ∧
        (b.finish tag rval).2.waiting = b.waiting ∧
        (b.finish tag rval).2.uuid = b.uuid ∧
        (rval = 0 →
          (b.finish tag rval).2.finished = b.finished ++ [x] ∧
          (b.finish tag rval).2.failed = b.failed) ∧
        (rval ≠ 0 →
          (b.finish tag rval).2.failed = b.failed ++ [x] ∧
          (b.finish tag rval).2.finished = b.finished)) := by
  constructor
  · intro h
    have hnone : removeFirstTag tag b.running = none :=
      removeFirstTag_eq_none_of ((is_running_eq_false_iff b tag).mp h)
    simp [CommandsRequest.finish, hnone]
  · intro h
    obtain ⟨x, rest, hsome⟩ :=
      removeFirstTag_isSome_of ((is_running_eq_true_iff b tag).mp h)
    obtain ⟨pre, post, hl, hrest, hxtag, hpre⟩ := removeFirstTag_eq_some hsome
    by_cases h0 : rval = 0
    · have hfin : b.finish tag rval =
          (true, { b with running := rest, finished := b.finished ++ [x] }) := by
        simp [CommandsRequest.finish, hsome, h0]
      refine ⟨by rw [hfin], x, pre, post, hl, hxtag, hpre, ?_, ?_, ?_, ?_, ?_⟩
      · rw [hfin, hrest]
      · rw [hfin]
      · rw [hfin]
      · intro _; rw [hfin]; exact ⟨rfl, rfl⟩
      · intro hne; exact absurd h0 hne
    · have hfin : b.finish tag rval =
          (true, { b with running := rest, failed := b.failed ++ [x] }) := by
        have hif : (rval == 0) = false := by simpa using h0
        simp [CommandsRequest.finish, hsome, hif]
      refine ⟨by rw [hfin], x, pre, post, hl, hxtag, hpre, ?_, ?_, ?_, ?_, ?_⟩
      · rw [hfin, hrest]
      · rw [hfin]
      · rw [hfin]
      · intro heq; exact absurd heq h0
      · intro _; rw [hfin]; exact ⟨rfl, rfl⟩

/-- C8 (witness): a completion for an unknown tag is reported not found
and changes nothing; a completion for the running tag is reported
found. -/
theorem c8_finish_characterization_witness :
    (⟨"u", [⟨"u:0", 0⟩], [], [], []⟩ : CommandsRequest).finish "zzz" 0 =
      (false, ⟨"u", [⟨"u:0", 0⟩], [], [], []⟩) ∧
    ((⟨"u", [⟨"u:0", 0⟩], [], [], []⟩ : CommandsRequest).finish "u:0" 1).1 =
      true :=
  ⟨(c8_finish_characterization ⟨"u", [⟨"u:0", 0⟩], [], [], []⟩ "zzz" 0).1
      (by decide),
    ((c8_finish_characterization ⟨"u", [⟨"u:0", 0⟩], [], [], []⟩ "u:0" 1).2
      (by decide)).1⟩

theorem length_filter_split (l : List CommandsRequest) :
    l.length = (l.filter fun b => b.is_finished).length +
      (l.filter fun b => !b.is_finished).length := by
  induction l with
  | nil => rfl
  | cons z zs ih =>
    cases hz : z.is_finished <;> simp [List.filter_cons, hz, ih] <;> omega

theorem countP_is_finished_eq (l : List CommandsRequest) :
    (l.countP fun b => b.is_finished) =
      (l.filter fun b => b.is_finished).length := by
  induction l with
  | nil => rfl
  | cons z zs ih =>
    cases hz : z.is_finished <;>
      simp [List.filter_cons, List.countP_cons, hz, ih]

/-- C9: the sweep endpoint removes exactly the finished batches — it
returns the number of finished batches, keeps precisely the unfinished
ones as an order-preserving sublist, and on the concrete registry
(finished, pending, finished) returns 2 retaining only the pending
batch. -/
theorem c9_sweep_characterization (requests : List CommandsRequest) :
    (Request.delete requests).1 = (requests.countP fun b => b.is_finished) ∧
    (Request.delete requests).2 =
      (requests.filter fun b => !b.is_finished) ∧
    (Request.delete requests).2.Sublist requests ∧
    (∀ b, b ∈ (Request.delete requests).2 ↔
      b ∈ requests ∧ b.is_finished = false) ∧
    Request.delete
        [⟨"a", [], [], [], []⟩, ⟨"p", [], [[0]], [], []⟩,
          ⟨"c", [], [], [], []⟩] =
      (2, [⟨"p", [], [[0]], [], []⟩]) := by
  refine ⟨?_, rfl, ?_, ?_, by decide⟩
  · have hsplit := length_filter_split requests
    simp only [Request.delete, countP_is_finished_eq]
    omega
  · exact List.filter_sublist requests
  · intro b
    simp [Request.delete, List.mem_filter]

/-- C10: the notification router leaves every batch untouched not only
when no live batch claims the tag but also when two or more claim it; it
applies the completion only when exactly one batch claims the tag, and
then it advances that batch exactly when the batch is ready after the
completion is applied. -/
theorem c10_notify_unique_claimant (st : Cmd → Bool) (tag : String)
    (rval : Int) :
    (∀ requests : List CommandsRequest,
      (requests.filter fun b => b.is_running tag).length = 0 →
      Module.notify st requests tag rval = requests) ∧
    (∀ requests : List CommandsRequest,
      2 ≤ (requests.filter fun b => b.is_running tag).length →
      Module.notify st requests tag rval = requests) ∧
    (∀ pre (b : CommandsRequest) post,
      (∀ y ∈ pre, y.is_running tag = false) → b.is_running tag = true →
      (∀ y ∈ post, y.is_running tag = false) →
      Module.notify st (pre ++ b :: post) tag rval =
        pre ++ notifyStep st tag rval b :: post) ∧
    (∀ b : CommandsRequest,
      ((b.finish tag rval).2.is_ready = true →
        notifyStep st tag rval b = ((b.finish tag rval).2.next st).2) ∧
      ((b.finish tag rval).2.is_ready = false →
        notifyStep st tag rval b = (b.finish tag rval).2)) := by
  refine ⟨?_, ?_, ?_, ?_⟩
  · intro requests h
    unfold Module.notify
    rw [if_neg (by simp only [beq_iff_eq]; omega)]
  · intro requests h
    unfold Module.notify
    rw [if_neg (by simp only [beq_iff_eq]; omega)]
  · intro pre b post hpre hb hpost
    have hfil : ((pre ++ b :: post).filter fun x => x.is_running tag) = [b] := by
      rw [List.filter_append, filter_eq_nil_of _ pre hpre]
      simp [List.filter_cons, hb, filter_eq_nil_of _ post hpost]
    unfold Module.notify
    rw [hfil, if_pos (by simp)]
    exact updateFirst_append (fun x => x.is_running tag)
      (notifyStep st tag rval) pre b post hpre hb
  · intro b
    constructor <;> intro h <;> simp [notifyStep, h]

/-- C10 (witness): a completion whose tag is claimed by two live batches
is dropped without modifying the registry. -/
theorem c10_notify_unique_claimant_witness :
    Module.notify noThrow
        [⟨"a", [⟨"t", 0⟩], [], [], []⟩, ⟨"b", [⟨"t", 1⟩], [], [], []⟩]
        "t" 0 =
      [⟨"a", [⟨"t", 0⟩], [], [], []⟩, ⟨"b", [⟨"t", 1⟩], [], [], []⟩] :=
  (c10_notify_unique_claimant noThrow "t" 0).2.1
    [⟨"a", [⟨"t", 0⟩], [], [], []⟩, ⟨"b", [⟨"t", 1⟩], [], [], []⟩]
    (by decide)
